import Mathlib

/-!
Shallow embedding of `mlagents/trainers/buffer.py` (`AgentBuffer` and its inner
class `AgentBufferField`), together with theorems settling the behavioural
claims about it.

Modelling conventions:
* Elements (numpy arrays in Python) are modelled as `Int` scalars; the only
  arithmetic the buffer performs on them is scalar multiplication by the
  field's `padding_value`.
* Python exceptions are modelled by `BufferError`: the two distinct
  `BufferException` messages become `outOfRange` (the get_batch message) and
  `lengthMismatch` (the shuffle / resequence message); `IndexError`,
  `ZeroDivisionError`, `ValueError` and `TypeError` get their own
  constructors.
* `dict` (Python 3.7+, insertion ordered) is modelled as an association list.
* Randomness (`np.random.shuffle`, `np.random.randint`) is modelled by
  passing the drawn values as an explicit argument; theorems hypothesise
  exactly the constraints the numpy call guarantees for its output.
-/

deriving instance DecidableEq for Except

namespace MLAgentsBuffer

/-- Exceptions the buffer code can raise.  `outOfRange` and `lengthMismatch`
are the two `BufferException` sites (distinguished by their messages);
the rest are the builtin Python exceptions reachable from the code. -/
inductive BufferError where
  | outOfRange
  | lengthMismatch
  | indexError
  | zeroDivision
  | valueError
  | typeError
  deriving DecidableEq, Repr

/-- `AgentBufferField`: a list of data plus the padding policy
(`self.padding_value`, initialised to 0 in `__init__` and overwritten on every
`append`). -/
structure AgentBufferField where
  elements : List Int
  padding_value : Int
  deriving DecidableEq, Repr

/-- A freshly constructed `AgentBufferField()`: empty list, `padding_value = 0`. -/
def AgentBufferField.empty : AgentBufferField := ⟨[], 0⟩

/-- `AgentBufferField.append(element, padding_value=0.0)`. -/
def AgentBufferField.append (f : AgentBufferField) (x : Int) (p : Int := 0) :
    AgentBufferField :=
  ⟨f.elements ++ [x], p⟩

/-- `AgentBufferField.set(data)`: replaces the contents (`self[:] = data`);
the padding policy is untouched. -/
def AgentBufferField.set (f : AgentBufferField) (data : List Int) : AgentBufferField :=
  { f with elements := data }

/-- `list.extend(data)` on an `AgentBufferField`: appends each element in
order; the padding policy is untouched. -/
def AgentBufferField.extend (f : AgentBufferField) (data : List Int) : AgentBufferField :=
  { f with elements := f.elements ++ data }

/-- `AgentBufferField.reset_field()`: `self[:] = []`; the padding policy is
untouched. -/
def AgentBufferField.reset_field (f : AgentBufferField) : AgentBufferField :=
  { f with elements := [] }

/-- Maximum sequential batch: `len(self) // training_length + 1 * (leftover
!= 0)` where `leftover = len(self) % training_length`; both the default
`batch_size` and the out-of-range bound in the sequential branch. -/
def seqMaxBatch (n t : Nat) : Nat :=
  n / t + (if n % t ≠ 0 then 1 else 0)

/-- The sequential branch of `AgentBufferField.get_batch`.  Mirrors the
Python line by line: `leftover = len(self) % training_length` (a
`ZeroDivisionError` when `training_length = 0`), the default
`batch_size = len(self) // training_length + 1 * (leftover != 0)`, the
out-of-range check, and the padding branch `[padding] * (training_length -
leftover) + self[:]` where `padding = self[-1] * self.padding_value`
(`self[-1]` on an empty list is an `IndexError`), else the suffix
`self[len(self) - batch_size * training_length:]`.  The method mutates
nothing: it only reads the field. -/
def AgentBufferField.getBatchSeq (f : AgentBufferField) (batchSize : Option Nat)
    (t : Nat) : Except BufferError (List Int) :=
  if t = 0 then .error .zeroDivision
  else if batchSize.getD (seqMaxBatch f.elements.length t) > seqMaxBatch f.elements.length t then
    .error .outOfRange
  else if batchSize.getD (seqMaxBatch f.elements.length t) * t > f.elements.length then
    match f.elements.getLast? with
    | none => .error .indexError
    | some last =>
      .ok (List.replicate (t - f.elements.length % t) (last * f.padding_value) ++ f.elements)
  else
    .ok (f.elements.drop
          (f.elements.length - batchSize.getD (seqMaxBatch f.elements.length t) * t))

/-- The loop of the overlapping branch of `get_batch`:
`for end in range(len(self) - batch_size + 1, len(self) + 1): tmp +=
self[end - training_length : end]`, written as a recursion on the number of
remaining iterations, with `e` the current value of `end`.  The Python slice
`self[e - t : e]` (indices in range on every reachable call) is
`(l.take e).drop (e - t)`. -/
def windows (l : List Int) (t : Nat) : Nat → Nat → List Int
  | _, 0 => []
  | e, c + 1 => ((l.take e).drop (e - t)) ++ windows l t (e + 1) c

/-- The effective `batch_size` of the overlapping branch after defaulting:
`len(self) - training_length + 1` when `None` was passed, computed over
`Int` exactly as Python does (it can be negative). -/
def overlapBatch (n : Nat) (batchSize : Option Nat) (t : Nat) : Int :=
  (batchSize.map Int.ofNat).getD ((n : Int) - t + 1)

/-- The overlapping (`sequential=False`) branch of `get_batch`: the range
check `(len(self) - training_length + 1) < batch_size` is over `Int`,
exactly as Python compares; when the effective batch size is not positive
the loop body runs zero times, which `Int.toNat` reproduces.  Like the
sequential branch, it only reads the field. -/
def AgentBufferField.getBatchOverlap (f : AgentBufferField) (batchSize : Option Nat)
    (t : Nat) : Except BufferError (List Int) :=
  if (f.elements.length : Int) - t + 1 < overlapBatch f.elements.length batchSize t then
    .error .outOfRange
  else
    .ok (windows f.elements t
          (f.elements.length - (overlapBatch f.elements.length batchSize t).toNat + 1)
          (overlapBatch f.elements.length batchSize t).toNat)

/-- `AgentBufferField.get_batch(batch_size=None, training_length=1,
sequential=True)`.  A `None` training length raises a `TypeError` in both
branches (`len(self) % None`, resp. `len(self) - None + 1`) before anything
else happens.  `get_batch` performs no mutation: on every path, error or
success, the field's elements and `padding_value` are left as they were
(in this model it is a pure function of the field). -/
def AgentBufferField.get_batch (f : AgentBufferField) (batchSize : Option Nat)
    (trainingLength : Option Nat) (sequential : Bool) : Except BufferError (List Int) :=
  match trainingLength with
  | none => .error .typeError
  | some t =>
    if sequential then f.getBatchSeq batchSize t
    else f.getBatchOverlap batchSize t

/-- `AgentBuffer`: a dict from field name to `AgentBufferField`
(modelled as an insertion-ordered association list) plus the two auxiliary
metadata slots set in `__init__` and cleared by `reset_agent`. -/
structure AgentBuffer where
  fields : List (String × AgentBufferField)
  last_brain_info : Option Int
  last_take_action_outputs : Option Int
  deriving DecidableEq, Repr

/-- A freshly constructed `AgentBuffer()`. -/
def AgentBuffer.empty : AgentBuffer := ⟨[], none, none⟩

/-- Plain dict lookup (`key in self.keys()` / `dict.__getitem__`), with no
auto-creation: returns the value at the first (unique) occurrence of the key. -/
def findField? : List (String × AgentBufferField) → String → Option AgentBufferField
  | [], _ => none
  | (k, f) :: rest, key => if k = key then some f else findField? rest key

/-- Lookup on a buffer. -/
def AgentBuffer.find? (b : AgentBuffer) (k : String) : Option AgentBufferField :=
  findField? b.fields k

/-- Replace the value stored at a key, keeping its position (dict update
semantics for an existing key); a no-op when the key is absent. -/
def updateFields : List (String × AgentBufferField) → String → AgentBufferField →
    List (String × AgentBufferField)
  | [], _, _ => []
  | (k, f) :: rest, key, nf =>
    if k = key then (key, nf) :: rest else (k, f) :: updateFields rest key nf

/-- Buffer-level field update. -/
def AgentBuffer.updateField (b : AgentBuffer) (k : String) (nf : AgentBufferField) :
    AgentBuffer :=
  { b with fields := updateFields b.fields k nf }

/-- `AgentBuffer.__getitem__`: `if key not in self.keys(): self[key] =
self.AgentBufferField()` — reading a key auto-creates an empty field for it
(appended at the end of the dict, insertion order), then returns it.
Returns the field together with the possibly-grown buffer. -/
def AgentBuffer.getOrCreate (b : AgentBuffer) (k : String) :
    AgentBufferField × AgentBuffer :=
  match b.find? k with
  | some f => (f, b)
  | none => (.empty, { b with fields := b.fields ++ [(k, .empty)] })

/-- `AgentBuffer.reset_agent()`: `reset_field` on every field (entries are
kept, contents emptied, padding policies untouched), then both metadata
slots are set to `None`. -/
def AgentBuffer.reset_agent (b : AgentBuffer) : AgentBuffer :=
  ⟨b.fields.map (fun kf => (kf.1, kf.2.reset_field)), none, none⟩

/-- The loop of `AgentBuffer.check_length`: `length` starts as `None`; a key
missing from the dict returns `False`; a field whose length differs from the
previously recorded one returns `False`; otherwise the field's length is
recorded and the loop continues. -/
def checkLenGo (b : AgentBuffer) : List String → Option Nat → Bool
  | [], _ => true
  | k :: ks, len? =>
    match b.find? k with
    | none => false
    | some f =>
      match len? with
      | none => checkLenGo b ks (some f.elements.length)
      | some l =>
        if l ≠ f.elements.length then false
        else checkLenGo b ks (some f.elements.length)

/-- `AgentBuffer.check_length(key_list)`: `True` when fewer than two keys are
given, otherwise the loop above. -/
def AgentBuffer.check_length (b : AgentBuffer) (names : List String) : Bool :=
  if names.length < 2 then true else checkLenGo b names none

/-- One chunk reassembly of `shuffle`: `tmp += self[key][i * sequence_length
: (i + 1) * sequence_length]` for each `i` of the shuffled index array, in
order. -/
def chunkPerm (perm : List Nat) (s : Nat) (l : List Int) : List Int :=
  match perm with
  | [] => []
  | i :: rest => ((l.take ((i + 1) * s)).drop (i * s)) ++ chunkPerm rest s l

/-- The per-field body of `shuffle`'s main loop: read the field
(auto-creating it if absent, as `self[key]` does), rebuild its contents as
the permuted chunk concatenation, and write them back in place
(`self[key][:] = tmp`, which keeps the padding policy). -/
def shuffleField (b : AgentBuffer) (s : Nat) (perm : List Nat) (k : String) :
    AgentBuffer :=
  (b.getOrCreate k).2.updateField k
    { (b.getOrCreate k).1 with elements := chunkPerm perm s (b.getOrCreate k).1.elements }

/-- `AgentBuffer.shuffle(sequence_length, key_list)` with an explicit
`key_list`.  `perm` models the contents of `s = np.arange(len(self[key_list[0]])
// sequence_length)` after `np.random.shuffle(s)`: theorems hypothesise that
it is a permutation of `range (len // sequence_length)`.  Failures, in
program order: the `check_length` guard raises the length-mismatch
`BufferException`; `key_list[0]` on an empty list is an `IndexError`;
reading `self[key_list[0]]` auto-creates that field; the division by
`sequence_length = 0` is a `ZeroDivisionError`.  Returns the resulting
buffer (unchanged so far on each error path reached before any write)
together with the raised exception, if any. -/
def AgentBuffer.shuffle (b : AgentBuffer) (s : Nat) (names : List String)
    (perm : List Nat) : AgentBuffer × Option BufferError :=
  if ¬ b.check_length names then (b, some .lengthMismatch)
  else
    match names with
    | [] => (b, some .indexError)
    | k0 :: rest =>
      if s = 0 then ((b.getOrCreate k0).2, some .zeroDivision)
      else
        ((k0 :: rest).foldl (fun acc k => shuffleField acc s perm k) (b.getOrCreate k0).2,
          none)

/-- Clamping of one Python slice index to `[0, n]`, with negative indices
counted from the end. -/
def pySliceIdx (n : Nat) (i : Int) : Nat :=
  if i < 0 then (max 0 ((n : Int) + i)).toNat else min i.toNat n

/-- Python list slice `l[a:b]` for arbitrary integer bounds. -/
def pySlice (l : List Int) (a b : Int) : List Int :=
  (l.take (pySliceIdx l.length b)).drop (pySliceIdx l.length a)

/-- `AgentBuffer.make_mini_batch(start, end)`: a fresh `AgentBuffer` where
`mini_batch[key] = self[key][start:end]` for every key, in iteration order.
The Python slice is a plain `list` object, which records no padding policy
at all (in particular the source field's `padding_value` is not copied);
the model represents the absence of a recorded padding policy by the
default value 0. -/
def AgentBuffer.make_mini_batch (b : AgentBuffer) (start stop : Int) : AgentBuffer :=
  ⟨b.fields.map (fun kf => (kf.1, ⟨pySlice kf.2.elements start stop, 0⟩)), none, none⟩

/-- Flattening of `mb_list = [self[key][i : i + sequence_length] for i in
start_idxes]` (already multiplied by `sequence_length`, so `starts` are
element indices), as done by `itertools.chain.from_iterable`. -/
def sampleSlices (starts : List Nat) (s : Nat) (l : List Int) : List Int :=
  match starts with
  | [] => []
  | i :: rest => ((l.take (i + s)).drop i) ++ sampleSlices rest s l

/-- `AgentBuffer.num_experiences`: the length of the first field's list, or 0
when there are no fields. -/
def AgentBuffer.num_experiences (b : AgentBuffer) : Nat :=
  match b.fields with
  | [] => 0
  | (_, f) :: _ => f.elements.length

/-- `AgentBuffer.sample_mini_batch(batch_size, sequence_length)`.  `draws`
models the output of `np.random.randint(num_sequences_in_buffer,
size=batch_size // sequence_length)`: theorems hypothesise that it has
length `batch_size / sequence_length` and entries below
`num_experiences / sequence_length`.  `batch_size // 0` is a
`ZeroDivisionError`; `np.random.randint(0, ...)` raises a `ValueError`.
On success every result field is built from the same start indices
`draws * sequence_length` in the same order, and is stored via
`mini_batch[key].set(...)` on an auto-created field, so its padding policy
is the default 0.  `sampleField` below is that per-field construction. -/
def sampleField (draws : List Nat) (seqLen : Nat) (f : AgentBufferField) :
    AgentBufferField :=
  ⟨sampleSlices (draws.map (fun i => i * seqLen)) seqLen f.elements, 0⟩

/-- See the doc comment above `sampleField`. -/
def AgentBuffer.sample_mini_batch (b : AgentBuffer) (batchSize seqLen : Nat)
    (draws : List Nat) : Except BufferError AgentBuffer :=
  if seqLen = 0 then .error .zeroDivision
  else if b.num_experiences / seqLen = 0 then .error .valueError
  else .ok ⟨b.fields.map (fun kf => (kf.1, sampleField draws seqLen kf.2)), none, none⟩

/-- `AgentBuffer.truncate(max_length, sequence_length)`: round `max_length`
down to a multiple of `sequence_length` (`max_length -= max_length %
sequence_length`; a `ZeroDivisionError` when `sequence_length = 0`), then, if
the current length exceeds it, replace every field's contents in place by
`self[_key][current_length - max_length:]` (padding policies untouched);
otherwise do nothing.  `truncFields` is the loop body applied to every
field, with `m` the already-rounded `max_length`. -/
def truncField (b : AgentBuffer) (m : Nat) (f : AgentBufferField) : AgentBufferField :=
  { f with elements := f.elements.drop (b.num_experiences - m) }

/-- See the doc comment above `truncField`. -/
def truncFields (b : AgentBuffer) (m : Nat) : List (String × AgentBufferField) :=
  b.fields.map (fun kf => (kf.1, truncField b m kf.2))

/-- See the doc comment above `truncFields`. -/
def AgentBuffer.truncate (b : AgentBuffer) (maxLength seqLen : Nat) :
    Except BufferError AgentBuffer :=
  if seqLen = 0 then .error .zeroDivision
  else if b.num_experiences > maxLength - maxLength % seqLen then
    .ok { b with fields := truncFields b (maxLength - maxLength % seqLen) }
  else .ok b

/-- The loop of `resequence_and_append`, threading both buffers.  Per key,
in Python evaluation order: `target_buffer[field_key]` (auto-creates in the
target), then `self[field_key]` (auto-creates in the source), then
`get_batch(batch_size, training_length)` (sequential); if it raises, the
exception propagates with the mutations made so far kept; otherwise the
target field is extended with the result. -/
def resequenceGo (src tgt : AgentBuffer) (batchSize trainingLength : Option Nat) :
    List String → AgentBuffer × AgentBuffer × Option BufferError
  | [] => (src, tgt, none)
  | k :: ks =>
    match (src.getOrCreate k).1.get_batch batchSize trainingLength true with
    | .error e => ((src.getOrCreate k).2, (tgt.getOrCreate k).2, some e)
    | .ok xs =>
      resequenceGo (src.getOrCreate k).2
        ((tgt.getOrCreate k).2.updateField k ((tgt.getOrCreate k).1.extend xs))
        batchSize trainingLength ks

/-- `AgentBuffer.resequence_and_append(target_buffer, key_list, batch_size,
training_length)` with an explicit `key_list`.  The `check_length` guard
raises the length-mismatch `BufferException` before anything is touched;
otherwise the loop above runs.  Returns (source, target, raised exception). -/
def AgentBuffer.resequence_and_append (src tgt : AgentBuffer) (names : List String)
    (batchSize trainingLength : Option Nat) :
    AgentBuffer × AgentBuffer × Option BufferError :=
  if ¬ src.check_length names then (src, tgt, some .lengthMismatch)
  else resequenceGo src tgt batchSize trainingLength names

/-! Helper lemmas. -/

theorem getBatchSeq_none_eq (f : AgentBufferField) (t : Nat)
    (hn : 0 < f.elements.length) (ht : 0 < t) :
    f.getBatchSeq none t =
      if f.elements.length % t = 0 then .ok f.elements
      else .ok (List.replicate (t - f.elements.length % t)
                 (f.elements.getLast?.getD 0 * f.padding_value) ++ f.elements) := by
  have hne : f.elements ≠ [] := by
    intro h
    rw [h] at hn
    exact absurd hn (by simp)
  obtain ⟨last, hlast⟩ := Option.isSome_iff_exists.mp (List.getLast?_isSome.mpr hne)
  unfold AgentBufferField.getBatchSeq
  rw [if_neg (by omega)]
  simp only [Option.getD_none, gt_iff_lt, lt_self_iff_false, if_false]
  by_cases hmod : f.elements.length % t = 0
  · rw [if_pos hmod]
    have hdiv : f.elements.length / t * t = f.elements.length := by
      have h1 := Nat.div_add_mod f.elements.length t
      rw [hmod] at h1
      calc f.elements.length / t * t = t * (f.elements.length / t) := Nat.mul_comm _ _
        _ = f.elements.length := by rw [Nat.add_zero] at h1; exact h1
    rw [if_neg ?_]
    · rw [seqMaxBatch, if_neg (by simp [hmod]), Nat.add_zero, hdiv, Nat.sub_self,
        List.drop_zero]
    · rw [seqMaxBatch, if_neg (by simp [hmod]), Nat.add_zero, hdiv]
      exact lt_irrefl _
  · rw [if_neg hmod]
    have hbt : f.elements.length < seqMaxBatch f.elements.length t * t := by
      rw [seqMaxBatch, if_pos hmod]
      calc f.elements.length
          = t * (f.elements.length / t) + f.elements.length % t :=
            (Nat.div_add_mod f.elements.length t).symm
        _ < t * (f.elements.length / t) + t :=
            Nat.add_lt_add_left (Nat.mod_lt _ ht) _
        _ = (f.elements.length / t + 1) * t := by ring
    rw [if_pos hbt, hlast]
    simp

/-- Claim C1: for a field of length `n > 0` with `training_length = t`,
`get_batch(sequential=True)` with `batch_size` omitted returns exactly
`ceil(n/t) * t` elements (`(n + t - 1) / t` is the `Nat` ceiling of `n/t`):
when `n % t ≠ 0`, `t - n % t` copies of the last real element times the
field's `padding_value`, followed by all `n` real elements in order; when
`n % t = 0`, exactly the original elements with no padding. -/
theorem get_batch_sequential_default_roundtrip (f : AgentBufferField) (t : Nat)
    (hn : 0 < f.elements.length) (ht : 0 < t) :
    (f.elements.length % t ≠ 0 →
      f.get_batch none (some t) true =
        .ok (List.replicate (t - f.elements.length % t)
              (f.elements.getLast?.getD 0 * f.padding_value) ++ f.elements)) ∧
    (f.elements.length % t = 0 →
      f.get_batch none (some t) true = .ok f.elements) ∧
    (∀ r, f.get_batch none (some t) true = .ok r →
      r.length = (f.elements.length + t - 1) / t * t) := by
  have hkey : f.get_batch none (some t) true =
      if f.elements.length % t = 0 then .ok f.elements
      else .ok (List.replicate (t - f.elements.length % t)
                 (f.elements.getLast?.getD 0 * f.padding_value) ++ f.elements) := by
    show f.getBatchSeq none t = _
    exact getBatchSeq_none_eq f t hn ht
  obtain ⟨q, r, hqr, hrlt, hdiveq, hmodeq⟩ :
      ∃ q r, t * q + r = f.elements.length ∧ r < t ∧
        f.elements.length / t = q ∧ f.elements.length % t = r :=
    ⟨f.elements.length / t, f.elements.length % t, Nat.div_add_mod _ _,
      Nat.mod_lt _ ht, rfl, rfl⟩
  refine ⟨?_, ?_, ?_⟩
  · intro hmod
    rw [hkey, if_neg hmod]
  · intro hmod
    rw [hkey, if_pos hmod]
  · intro res hres
    rw [hkey] at hres
    by_cases hmod : f.elements.length % t = 0
    · rw [if_pos hmod] at hres
      have hrz : r = 0 := by rw [← hmodeq]; exact hmod
      have hceil : (f.elements.length + t - 1) / t = q := by
        subst hrz
        rw [← hqr, Nat.add_zero]
        rw [show t * q + t - 1 = (t - 1) + q * t by
          rw [Nat.mul_comm]; omega]
        rw [Nat.add_mul_div_right _ _ ht, Nat.div_eq_of_lt (by omega), Nat.zero_add]
      cases hres
      rw [hceil, ← hqr, hrz]
      ring
    · rw [if_neg hmod] at hres
      have hrpos : 0 < r := by
        rw [← hmodeq]
        exact Nat.pos_of_ne_zero hmod
      have hceil : (f.elements.length + t - 1) / t = q + 1 := by
        rw [← hqr]
        rw [show t * q + r + t - 1 = (r - 1) + (q + 1) * t by ring_nf; omega]
        rw [Nat.add_mul_div_right _ _ ht, Nat.div_eq_of_lt (by omega), Nat.zero_add]
      cases hres
      simp only [List.length_append, List.length_replicate]
      rw [hceil, hmodeq, ← hqr]
      have : t - r + (t * q + r) = t * q + t := by omega
      rw [this]
      ring

theorem get_batch_sequential_default_roundtrip_witness :
    AgentBufferField.get_batch ⟨[2, 3, 4], 5⟩ none (some 2) true = .ok [20, 2, 3, 4] :=
  ((get_batch_sequential_default_roundtrip ⟨[2, 3, 4], 5⟩ 2 (by decide) (by decide)).1
    (by decide)).trans (by decide)

/-- Modelled from the spec's words, for the refinement statement of claim
C2: the concatenation, for `c` successive window end positions starting at
`e` and ascending, of the `training_length` elements ending at each
position. -/
def specOverlapWindows (l : List Int) (t : Nat) : Nat → Nat → List Int
  | _, 0 => []
  | e, c + 1 => ((l.drop (e - t)).take t) ++ specOverlapWindows l t (e + 1) c

theorem windows_eq_spec (l : List Int) (t : Nat) :
    ∀ (c e : Nat), t ≤ e → windows l t e c = specOverlapWindows l t e c
  | 0, e, _ => rfl
  | c + 1, e, he => by
    unfold windows specOverlapWindows
    rw [windows_eq_spec l t c (e + 1) (Nat.le_trans he (Nat.le_succ e))]
    congr 1
    conv_rhs => rw [List.take_drop]
    rw [Nat.sub_add_cancel he]

/-- Claim C2: for a field of length `n`, `1 ≤ batch_size = b` and
`b + t ≤ n + 1` (i.e. `b ≤ n - t + 1`), `get_batch(sequential=False)`
returns the concatenation, for each of the `b` window end positions from
`n - b + 1` ascending to `n`, of the `t` elements ending there; in
particular for `n = 5`, `t = 2`, `b = 4` it is exactly
`[e0,e1, e1,e2, e2,e3, e3,e4]`. -/
theorem get_batch_overlapping_windows (f : AgentBufferField) (b t : Nat)
    (ht : 0 < t) (hb : 0 < b) (hbn : b + t ≤ f.elements.length + 1) :
    f.get_batch (some b) (some t) false =
      .ok (specOverlapWindows f.elements t (f.elements.length - b + 1) b) ∧
    (∀ e0 e1 e2 e3 e4 p : Int,
      AgentBufferField.get_batch ⟨[e0, e1, e2, e3, e4], p⟩ (some 4) (some 2) false
        = .ok [e0, e1, e1, e2, e2, e3, e3, e4]) := by
  constructor
  · have hob : overlapBatch f.elements.length (some b) t = (b : Int) := by
      simp [overlapBatch]
    show f.getBatchOverlap (some b) t = _
    unfold AgentBufferField.getBatchOverlap
    rw [hob]
    rw [if_neg (by omega)]
    rw [Int.toNat_ofNat]
    rw [windows_eq_spec f.elements t b (f.elements.length - b + 1) (by omega)]
  · intro e0 e1 e2 e3 e4 p
    rfl

theorem get_batch_overlapping_windows_witness :
    AgentBufferField.get_batch ⟨[10, 20, 30, 40, 50], 0⟩ (some 4) (some 2) false
      = .ok [10, 20, 20, 30, 30, 40, 40, 50] :=
  ((get_batch_overlapping_windows ⟨[10, 20, 30, 40, 50], 0⟩ 4 2 (by decide) (by decide)
    (by decide)).1).trans (by decide)

/-- Claim C3: `get_batch` raises the out-of-range `BufferException` exactly
when the requested `batch_size` exceeds the maximum available —
`n / t + 1` when `n % t ≠ 0` else `n / t` in sequential mode, and
`n - t + 1` (an `Int`, possibly negative) in overlapping mode.  The
non-modification half of the claim is structural: in this embedding
`get_batch` is a pure function of the field (see its doc comment), matching
the Python method, which performs no write on any path. -/
theorem get_batch_out_of_range_iff (f : AgentBufferField) (b t : Nat) (ht : 0 < t) :
    (f.get_batch (some b) (some t) true = .error .outOfRange ↔
      b > f.elements.length / t + (if f.elements.length % t ≠ 0 then 1 else 0)) ∧
    (f.get_batch (some b) (some t) false = .error .outOfRange ↔
      (f.elements.length : Int) - t + 1 < b) := by
  constructor
  · show f.getBatchSeq (some b) t = _ ↔ _
    unfold AgentBufferField.getBatchSeq
    rw [if_neg (by omega)]
    show (if b > seqMaxBatch f.elements.length t then _ else _) = _ ↔ _
    by_cases hgt : b > seqMaxBatch f.elements.length t
    · rw [if_pos hgt]
      simp only [true_iff]
      rw [seqMaxBatch] at hgt
      exact hgt
    · rw [if_neg hgt]
      constructor
      · intro h
        exfalso
        split at h
        · split at h
          · exact absurd h (by simp)
          · exact absurd h (by simp)
        · exact absurd h (by simp)
      · intro h
        exact absurd (show b > seqMaxBatch f.elements.length t from h) hgt
  · show f.getBatchOverlap (some b) t = _ ↔ _
    have hob : overlapBatch f.elements.length (some b) t = (b : Int) := by
      simp [overlapBatch]
    unfold AgentBufferField.getBatchOverlap
    rw [hob]
    by_cases hlt : (f.elements.length : Int) - t + 1 < (b : Int)
    · rw [if_pos hlt]
      simp only [true_iff]
      exact hlt
    · rw [if_neg hlt]
      constructor
      · intro h
        exact absurd h (by simp)
      · intro h
        exact absurd h hlt

theorem get_batch_out_of_range_iff_witness :
    AgentBufferField.get_batch ⟨[1, 2, 3], 0⟩ (some 3) (some 2) true
      = .error .outOfRange :=
  (get_batch_out_of_range_iff ⟨[1, 2, 3], 0⟩ 3 2 (by decide)).1.mpr (by decide)

theorem findField?_map (g : AgentBufferField → AgentBufferField) :
    ∀ (l : List (String × AgentBufferField)) (k : String),
      findField? (l.map (fun kf => (kf.1, g kf.2))) k = (findField? l k).map g
  | [], _ => rfl
  | (a, f) :: rest, k => by
    simp only [List.map_cons, findField?]
    split
    · rfl
    · exact findField?_map g rest k

theorem map_fst_map_snd (g : AgentBufferField → AgentBufferField) :
    ∀ l : List (String × AgentBufferField),
      (l.map (fun kf => (kf.1, g kf.2))).map Prod.fst = l.map Prod.fst
  | [] => rfl
  | kf :: rest => by
    simp only [List.map_cons]
    rw [map_fst_map_snd g rest]

/-- Claim C9: `reset_field` empties a field's element sequence and keeps its
`padding_value`; `reset_agent` resets every field (keys kept, contents
emptied, padding policies kept) and clears both auxiliary metadata slots. -/
theorem reset_field_and_agent_semantics (f : AgentBufferField) (buf : AgentBuffer) :
    f.reset_field.elements = [] ∧
    f.reset_field.padding_value = f.padding_value ∧
    buf.reset_agent.fields.map Prod.fst = buf.fields.map Prod.fst ∧
    (∀ k g, buf.find? k = some g →
      buf.reset_agent.find? k = some ⟨[], g.padding_value⟩) ∧
    buf.reset_agent.last_brain_info = none ∧
    buf.reset_agent.last_take_action_outputs = none := by
  refine ⟨rfl, rfl, map_fst_map_snd _ buf.fields, ?_, rfl, rfl⟩
  intro k g hg
  show findField? (buf.fields.map (fun kf => (kf.1, kf.2.reset_field))) k = _
  rw [findField?_map]
  show (buf.find? k).map _ = _
  rw [hg]
  rfl

theorem reset_field_and_agent_semantics_witness :
    (AgentBuffer.reset_agent ⟨[("x", ⟨[1, 2], 5⟩)], some 3, some 4⟩).find? "x"
      = some ⟨[], 5⟩ :=
  (reset_field_and_agent_semantics ⟨[9], 7⟩
    ⟨[("x", ⟨[1, 2], 5⟩)], some 3, some 4⟩).2.2.2.1 "x" ⟨[1, 2], 5⟩ (by decide)

/-- Claim C10: neither `make_mini_batch` nor `sample_mini_batch` copies the
source field's padding policy into the returned buffer.  `make_mini_batch`
stores the bare Python list slice, which records no padding value at all
(modelled as the default 0); `sample_mini_batch` stores into an
auto-created field whose padding value is the default 0 and is never
changed by `set`. -/
theorem mini_batch_default_padding (buf : AgentBuffer) (a b : Int)
    (bs s : Nat) (draws : List Nat) :
    (∀ kf ∈ (buf.make_mini_batch a b).fields, kf.2.padding_value = 0) ∧
    (∀ mb, buf.sample_mini_batch bs s draws = .ok mb →
      ∀ kf ∈ mb.fields, kf.2.padding_value = 0) := by
  constructor
  · intro kf hkf
    obtain ⟨kf0, _, hkf0⟩ := List.mem_map.mp hkf
    rw [← hkf0]
  · intro mb hmb kf hkf
    unfold AgentBuffer.sample_mini_batch at hmb
    split at hmb
    · exact absurd hmb (by simp)
    · split at hmb
      · exact absurd hmb (by simp)
      · cases hmb
        obtain ⟨kf0, _, hkf0⟩ := List.mem_map.mp hkf
        rw [← hkf0]
        rfl

theorem mini_batch_default_padding_witness :
    (("x", (⟨pySlice [1, 2, 3] 0 2, 0⟩ : AgentBufferField))
        : String × AgentBufferField).2.padding_value = 0 :=
  (mini_batch_default_padding ⟨[("x", ⟨[1, 2, 3], 9⟩)], none, none⟩ 0 2 4 2 [0]).1
    _ (by decide)

/-- Claim C8: `truncate` first rounds `max_length` down to a multiple of
`sequence_length`; when the current number of experiences exceeds that
bound every field is replaced by the suffix of its most recent
rounded-bound elements (for fields satisfying the equal-length invariant
`length = num_experiences`), otherwise nothing changes; in particular
`truncate(3, 1)` on `[a,b,c,d,e]` gives `[c,d,e]` and a following
`truncate(10, 1)` is a no-op. -/
theorem truncate_keeps_suffix (buf : AgentBuffer) (maxLength s : Nat) (hs : 0 < s)
    (hinv : ∀ k f, buf.find? k = some f → f.elements.length = buf.num_experiences) :
    (buf.num_experiences > maxLength - maxLength % s →
      ∃ b2, buf.truncate maxLength s = .ok b2 ∧
        ∀ k f, buf.find? k = some f →
          b2.find? k = some { f with
            elements := f.elements.drop (f.elements.length - (maxLength - maxLength % s)) }) ∧
    (buf.num_experiences ≤ maxLength - maxLength % s →
      buf.truncate maxLength s = .ok buf) ∧
    (∀ a b c d e p : Int,
      AgentBuffer.truncate ⟨[("x", ⟨[a, b, c, d, e], p⟩)], none, none⟩ 3 1
          = .ok ⟨[("x", ⟨[c, d, e], p⟩)], none, none⟩ ∧
      AgentBuffer.truncate ⟨[("x", ⟨[c, d, e], p⟩)], none, none⟩ 10 1
          = .ok ⟨[("x", ⟨[c, d, e], p⟩)], none, none⟩) := by
  refine ⟨?_, ?_, ?_⟩
  · intro hgt
    refine ⟨{ buf with fields := truncFields buf (maxLength - maxLength % s) }, ?_, ?_⟩
    · unfold AgentBuffer.truncate
      rw [if_neg (by omega), if_pos hgt]
    · intro k f hf
      show findField? (truncFields buf _) k = _
      unfold truncFields
      rw [findField?_map (truncField buf (maxLength - maxLength % s))]
      show (buf.find? k).map _ = _
      rw [hf, hinv k f hf]
      rfl
  · intro hle
    unfold AgentBuffer.truncate
    rw [if_neg (by omega), if_neg (by omega)]
  · intro a b c d e p
    exact ⟨rfl, rfl⟩

theorem truncate_keeps_suffix_witness :
    AgentBuffer.truncate ⟨[("x", ⟨[3, 4, 5], 0⟩)], none, none⟩ 10 1
      = .ok ⟨[("x", ⟨[3, 4, 5], 0⟩)], none, none⟩ :=
  (truncate_keeps_suffix ⟨[("x", ⟨[3, 4, 5], 0⟩)], none, none⟩ 10 1 (by decide)
    (by
      intro k f h
      simp only [AgentBuffer.find?, findField?] at h
      split at h
      · cases h
        rfl
      · exact Option.noConfusion h)).2.1 (by decide)

theorem sampleSlices_length (s : Nat) :
    ∀ (starts : List Nat) (l : List Int),
      (∀ i ∈ starts, i + s ≤ l.length) →
      (sampleSlices starts s l).length = starts.length * s
  | [], l, _ => by simp [sampleSlices]
  | i :: rest, l, hb => by
    have hi : i + s ≤ l.length := hb i (List.mem_cons_self i rest)
    simp only [sampleSlices, List.length_append, List.length_drop, List.length_take,
      List.length_cons]
    rw [sampleSlices_length s rest l (fun x hx => hb x (List.mem_cons_of_mem _ hx))]
    rw [Nat.min_eq_left hi, Nat.add_sub_cancel_left]
    ring

/-- Claim C7: on a buffer whose fields all have length `n ≥ sequence_length`,
`sample_mini_batch(batch_size, sequence_length)` succeeds with a new buffer
in which every field has length `(batch_size / sequence_length) *
sequence_length`, built by concatenating `sequence_length`-element runs at
start indices `draws * sequence_length` (multiples of `sequence_length`
below `(n / sequence_length) * sequence_length`), the same starts in the
same order for every field — so every run position of all result fields
originates from the same source start index. -/
theorem sample_mini_batch_aligned (buf : AgentBuffer) (bs s n : Nat)
    (draws : List Nat) (hs : 0 < s) (hns : s ≤ n) (hne : buf.fields ≠ [])
    (hfields : ∀ k f, buf.find? k = some f → f.elements.length = n)
    (hlen : draws.length = bs / s) (hbound : ∀ i ∈ draws, i < n / s) :
    ∃ mb, buf.sample_mini_batch bs s draws = .ok mb ∧
      (∀ k f, buf.find? k = some f →
        mb.find? k = some ⟨sampleSlices (draws.map (fun i => i * s)) s f.elements, 0⟩) ∧
      (∀ k g, mb.find? k = some g → g.elements.length = bs / s * s) := by
  have hnum : buf.num_experiences = n := by
    cases hfl : buf.fields with
    | nil => exact absurd hfl hne
    | cons kf rest =>
      have hfind : buf.find? kf.1 = some kf.2 := by
        show findField? buf.fields kf.1 = some kf.2
        rw [hfl]
        cases kf with
        | mk a f => simp [findField?]
      have := hfields kf.1 kf.2 hfind
      unfold AgentBuffer.num_experiences
      rw [hfl]
      cases kf with
      | mk a f => exact this
  have hstep : buf.sample_mini_batch bs s draws =
      .ok ⟨buf.fields.map (fun kf => (kf.1, sampleField draws s kf.2)), none, none⟩ := by
    unfold AgentBuffer.sample_mini_batch
    rw [if_neg (by omega), if_neg ?_]
    rw [hnum]
    have : 0 < n / s := Nat.div_pos hns hs
    omega
  refine ⟨_, hstep, ?_, ?_⟩
  · intro k f hf
    show findField? (buf.fields.map (fun kf => (kf.1, sampleField draws s kf.2))) k = _
    rw [findField?_map (sampleField draws s)]
    show (buf.find? k).map _ = _
    rw [hf]
    rfl
  · intro k g hg
    replace hg : findField? (buf.fields.map (fun kf => (kf.1, sampleField draws s kf.2))) k
        = some g := hg
    rw [findField?_map (sampleField draws s)] at hg
    obtain ⟨f, hf, hgf⟩ := Option.map_eq_some'.mp hg
    have hflen : f.elements.length = n := hfields k f hf
    have hbounds : ∀ i ∈ draws.map (fun i => i * s), i + s ≤ f.elements.length := by
      intro i hi
      obtain ⟨j, hj, rfl⟩ := List.mem_map.mp hi
      have hjlt : j < n / s := hbound j hj
      have : (j + 1) * s ≤ n := by
        calc (j + 1) * s ≤ n / s * s := Nat.mul_le_mul_right s hjlt
          _ ≤ n := Nat.div_mul_le_self n s
      rw [hflen]
      calc j * s + s = (j + 1) * s := by ring
        _ ≤ n := this
    rw [← hgf]
    show (sampleSlices (draws.map (fun i => i * s)) s f.elements).length = _
    rw [sampleSlices_length s _ _ hbounds, List.length_map, hlen]

theorem sample_mini_batch_aligned_witness :
    AgentBuffer.sample_mini_batch
        ⟨[("A", ⟨[10, 20, 30, 40, 50], 0⟩), ("B", ⟨[1, 2, 3, 4, 5], 7⟩)], none, none⟩
        4 2 [1, 0]
      = .ok ⟨[("A", ⟨[30, 40, 10, 20], 0⟩), ("B", ⟨[3, 4, 1, 2], 0⟩)], none, none⟩ := by
  obtain ⟨mb, hmb, hfind, hlen⟩ := sample_mini_batch_aligned
    ⟨[("A", ⟨[10, 20, 30, 40, 50], 0⟩), ("B", ⟨[1, 2, 3, 4, 5], 7⟩)], none, none⟩
    4 2 5 [1, 0] (by decide) (by decide) (by decide)
    (by
      intro k f h
      simp only [AgentBuffer.find?, findField?] at h
      split at h
      · cases h
        rfl
      · split at h
        · cases h
          rfl
        · exact Option.noConfusion h)
    (by decide) (by decide)
  have hpin : Except.ok mb =
      Except.ok (⟨[("A", ⟨[30, 40, 10, 20], 0⟩), ("B", ⟨[3, 4, 1, 2], 0⟩)], none,
        none⟩ : AgentBuffer) :=
    hmb.symm.trans (by decide)
  cases hpin
  exact hmb

/-- Claim C5 (counterexample): `resequence_and_append` with `batch_size = 4`
and `training_length = 2` on a buffer whose only field holds 2 elements does
NOT succeed with a padded 4-element target field — the inner
`get_batch(4, 2, sequential=True)` raises the out-of-range
`BufferException` (only `2 // 2 = 1` sequence is available), after the
target has merely auto-created an empty field for the key. -/
theorem resequence_counterexample :
    AgentBuffer.resequence_and_append ⟨[("obs", ⟨[1, 2], 3⟩)], none, none⟩
        AgentBuffer.empty ["obs"] (some 4) (some 2)
      = (⟨[("obs", ⟨[1, 2], 3⟩)], none, none⟩, ⟨[("obs", ⟨[], 0⟩)], none, none⟩,
          some .outOfRange) := by
  decide

/-- Claim C5 (amended): with `batch_size = 1` and `training_length = 4`
(the parameters under which the source's `get_batch` actually produces the
described padded window), `resequence_and_append` of a 2-element source
field into an empty target succeeds and produces a 4-element target field
whose first 2 elements are the padding synthesised from the source's
padding policy (last element times `padding_value`) and whose last 2
elements are the original data, in order. -/
theorem resequence_pads_shortfall (d0 d1 p : Int) :
    AgentBuffer.resequence_and_append ⟨[("obs", ⟨[d0, d1], p⟩)], none, none⟩
        AgentBuffer.empty ["obs"] (some 1) (some 4)
      = (⟨[("obs", ⟨[d0, d1], p⟩)], none, none⟩,
         ⟨[("obs", ⟨[d1 * p, d1 * p, d0, d1], 0⟩)], none, none⟩, none) := by
  rfl

theorem resequence_pads_shortfall_witness :
    AgentBuffer.resequence_and_append ⟨[("obs", ⟨[1, 2], 3⟩)], none, none⟩
        AgentBuffer.empty ["obs"] (some 1) (some 4)
      = (⟨[("obs", ⟨[1, 2], 3⟩)], none, none⟩,
         ⟨[("obs", ⟨[6, 6, 1, 2], 0⟩)], none, none⟩, none) :=
  (resequence_pads_shortfall 1 2 3).trans (by decide)

theorem findField?_append_ne :
    ∀ (l : List (String × AgentBufferField)) (k k2 : String) (f : AgentBufferField),
      k2 ≠ k → findField? (l ++ [(k, f)]) k2 = findField? l k2
  | [], k, k2, f, h => by
    simp only [List.nil_append, findField?]
    rw [if_neg (fun hh : k = k2 => h hh.symm)]
  | (a, g) :: rest, k, k2, f, h => by
    simp only [List.cons_append, findField?]
    split
    · rfl
    · exact findField?_append_ne rest k k2 f h

theorem findField?_updateFields_ne :
    ∀ (l : List (String × AgentBufferField)) (k k2 : String) (nf : AgentBufferField),
      k2 ≠ k → findField? (updateFields l k nf) k2 = findField? l k2
  | [], _, _, _, _ => rfl
  | (a, g) :: rest, k, k2, nf, h => by
    simp only [updateFields]
    split
    · rename_i hak
      simp only [findField?]
      rw [if_neg (fun hh : k = k2 => h hh.symm), if_neg (by rw [hak]; exact fun hh => h hh.symm)]
    · simp only [findField?]
      split
      · rfl
      · exact findField?_updateFields_ne rest k k2 nf h

theorem findField?_updateFields_self :
    ∀ (l : List (String × AgentBufferField)) (k : String) (nf f : AgentBufferField),
      findField? l k = some f → findField? (updateFields l k nf) k = some nf
  | [], k, nf, f, h => Option.noConfusion h
  | (a, g) :: rest, k, nf, f, h => by
    simp only [updateFields]
    split
    · simp [findField?]
    · rename_i hak
      simp only [findField?, if_neg hak]
      simp only [findField?, if_neg hak] at h
      exact findField?_updateFields_self rest k nf f h

theorem getOrCreate_of_find? (b : AgentBuffer) (k : String) (f : AgentBufferField)
    (h : b.find? k = some f) : b.getOrCreate k = (f, b) := by
  unfold AgentBuffer.getOrCreate
  rw [h]

theorem find?_shuffleField_ne (b : AgentBuffer) (s : Nat) (perm : List Nat)
    (k k2 : String) (h : k2 ≠ k) :
    (shuffleField b s perm k).find? k2 = b.find? k2 := by
  unfold shuffleField AgentBuffer.getOrCreate
  cases hf : b.find? k with
  | some f =>
    simp only
    show findField? (updateFields b.fields k _) k2 = _
    rw [findField?_updateFields_ne _ _ _ _ h]
    rfl
  | none =>
    simp only
    show findField? (updateFields (b.fields ++ [(k, .empty)]) k _) k2 = _
    rw [findField?_updateFields_ne _ _ _ _ h, findField?_append_ne _ _ _ _ h]
    rfl

theorem find?_shuffleField_self (b : AgentBuffer) (s : Nat) (perm : List Nat)
    (k : String) (f : AgentBufferField) (h : b.find? k = some f) :
    (shuffleField b s perm k).find? k
      = some { f with elements := chunkPerm perm s f.elements } := by
  unfold shuffleField
  rw [getOrCreate_of_find? b k f h]
  show findField? (updateFields b.fields k _) k = _
  exact findField?_updateFields_self b.fields k _ f h

theorem foldl_shuffleField_not_mem (s : Nat) (perm : List Nat) :
    ∀ (names : List String) (b : AgentBuffer) (k : String), k ∉ names →
      (names.foldl (fun acc k2 => shuffleField acc s perm k2) b).find? k = b.find? k
  | [], b, k, _ => rfl
  | k1 :: ks, b, k, h => by
    have h1 : k ≠ k1 := fun hh => h (hh ▸ List.mem_cons_self k1 ks)
    have h2 : k ∉ ks := fun hh => h (List.mem_cons_of_mem _ hh)
    simp only [List.foldl_cons]
    rw [foldl_shuffleField_not_mem s perm ks _ k h2, find?_shuffleField_ne _ _ _ _ _ h1]

theorem foldl_shuffleField_mem (s : Nat) (perm : List Nat) :
    ∀ (names : List String) (b : AgentBuffer), names.Nodup →
      ∀ k ∈ names, ∀ f, b.find? k = some f →
        (names.foldl (fun acc k2 => shuffleField acc s perm k2) b).find? k
          = some { f with elements := chunkPerm perm s f.elements }
  | [], b, _, k, hk, f, _ => absurd hk (List.not_mem_nil k)
  | k1 :: ks, b, hnd, k, hk, f, hf => by
    simp only [List.foldl_cons]
    rcases List.mem_cons.mp hk with rfl | hks
    · rw [foldl_shuffleField_not_mem s perm ks _ k (List.nodup_cons.mp hnd).1]
      exact find?_shuffleField_self b s perm k f hf
    · have hne : k ≠ k1 := by
        intro hh
        exact (List.nodup_cons.mp hnd).1 (hh ▸ hks)
      refine foldl_shuffleField_mem s perm ks _ (List.nodup_cons.mp hnd).2 k hks f ?_
      rw [find?_shuffleField_ne _ _ _ _ _ hne]
      exact hf

theorem checkLenGo_uniform (b : AgentBuffer) (n : Nat) :
    ∀ (names : List String) (len? : Option Nat),
      (∀ k ∈ names, ∃ f, b.find? k = some f ∧ f.elements.length = n) →
      (len? = none ∨ len? = some n) → checkLenGo b names len? = true
  | [], _, _, _ => rfl
  | k :: ks, len?, hall, hlen => by
    obtain ⟨f, hf, hflen⟩ := hall k (List.mem_cons_self k ks)
    have hrest : ∀ k2 ∈ ks, ∃ f2, b.find? k2 = some f2 ∧ f2.elements.length = n :=
      fun k2 hk2 => hall k2 (List.mem_cons_of_mem _ hk2)
    simp only [checkLenGo, hf]
    rcases hlen with rfl | rfl
    · exact checkLenGo_uniform b n ks _ hrest (Or.inr (by rw [hflen]))
    · show (if n ≠ f.elements.length then false
        else checkLenGo b ks (some f.elements.length)) = true
      rw [if_neg (by simp [hflen])]
      exact checkLenGo_uniform b n ks _ hrest (Or.inr (by rw [hflen]))

theorem check_length_of_uniform (b : AgentBuffer) (names : List String) (n : Nat)
    (h : ∀ k ∈ names, ∃ f, b.find? k = some f ∧ f.elements.length = n) :
    b.check_length names = true := by
  unfold AgentBuffer.check_length
  split
  · rfl
  · exact checkLenGo_uniform b n names none h (Or.inl rfl)

theorem chunkPerm_length (s n : Nat) :
    ∀ (perm : List Nat) (l : List Int), l.length = n →
      (∀ i ∈ perm, i < n / s) → (chunkPerm perm s l).length = perm.length * s
  | [], l, _, _ => by simp [chunkPerm]
  | i :: rest, l, hl, hbound => by
    have hi : i < n / s := hbound i (List.mem_cons_self i rest)
    have h1 : (i + 1) * s ≤ n := by
      calc (i + 1) * s ≤ n / s * s := Nat.mul_le_mul_right s hi
        _ ≤ n := Nat.div_mul_le_self n s
    simp only [chunkPerm, List.length_append, List.length_drop, List.length_take,
      List.length_cons]
    rw [chunkPerm_length s n rest l hl (fun j hj => hbound j (List.mem_cons_of_mem _ hj))]
    rw [hl, Nat.min_eq_left h1]
    have hstep : (i + 1) * s - i * s = s := by
      rw [Nat.succ_mul, Nat.add_sub_cancel_left]
    rw [hstep]
    ring

theorem getElem?_getD_of_lt {α : Type} (l : List α) (d : α) (i : Nat)
    (h : i < l.length) : l[i]? = some (l.getD i d) := by
  simp [List.getD_eq_getElem?_getD, List.getElem?_eq_getElem h]

theorem take_one_drop (l : List Int) (j : Nat) (h : j < l.length) :
    (l.take (j + 1)).drop j = [l.getD j 0] := by
  rw [List.take_succ]
  rw [List.drop_left' (by rw [List.length_take]; exact Nat.min_eq_left (Nat.le_of_lt h))]
  rw [getElem?_getD_of_lt l 0 j h]
  rfl

theorem chunkPerm_one (l : List Int) :
    ∀ perm : List Nat, (∀ j ∈ perm, j < l.length) →
      chunkPerm perm 1 l = perm.map (fun j => l.getD j 0)
  | [], _ => rfl
  | j :: rest, hb => by
    have hj : j < l.length := hb j (List.mem_cons_self j rest)
    simp only [chunkPerm, List.map_cons, Nat.mul_one]
    rw [take_one_drop l j hj,
      chunkPerm_one l rest (fun x hx => hb x (List.mem_cons_of_mem _ hx))]
    rfl

/-- Claim C4: for a buffer whose named (distinct) fields all have length
`n` and `sequence_length = s ≥ 1`, `shuffle` succeeds, and the one chunk
permutation `perm` (the shuffled `arange(n / s)`) is applied identically to
every named field: each named field becomes the concatenation of its
original `s`-element chunks in `perm` order (padding kept), hence has
length `(n / s) * s` — the remainder beyond it is truncated away — and for
`s = 1` cross-field alignment is preserved: every result index `i` reads
all fields at the single source index `j = perm[i]`. -/
theorem shuffle_single_permutation (buf : AgentBuffer) (s : Nat)
    (names : List String) (perm : List Nat) (n : Nat) (hs : 0 < s)
    (hnd : names.Nodup) (hne : names ≠ [])
    (hfields : ∀ k ∈ names, ∃ f, buf.find? k = some f ∧ f.elements.length = n)
    (hperm : perm.Perm (List.range (n / s))) :
    (buf.shuffle s names perm).2 = none ∧
    (∀ k ∈ names, ∀ f, buf.find? k = some f →
      (buf.shuffle s names perm).1.find? k
        = some { f with elements := chunkPerm perm s f.elements }) ∧
    (∀ k ∈ names, ∀ g, (buf.shuffle s names perm).1.find? k = some g →
      g.elements.length = n / s * s) ∧
    (s = 1 → ∀ i, i < n → ∃ j, j < n ∧
      ∀ k ∈ names, ∀ f g, buf.find? k = some f →
        (buf.shuffle s names perm).1.find? k = some g →
        g.elements[i]? = f.elements[j]?) := by
  have hcheck : buf.check_length names = true := check_length_of_uniform buf names n hfields
  have hpermmem : ∀ i ∈ perm, i < n / s := by
    intro i hi
    have := hperm.mem_iff.mp hi
    exact List.mem_range.mp this
  have hpermlen : perm.length = n / s := by
    rw [hperm.length_eq, List.length_range]
  obtain ⟨k0, ks, rfl⟩ : ∃ k0 ks, names = k0 :: ks := by
    cases names with
    | nil => exact absurd rfl hne
    | cons k0 ks => exact ⟨k0, ks, rfl⟩
  obtain ⟨f0, hf0, hf0len⟩ := hfields k0 (List.mem_cons_self k0 ks)
  have hshuffle : buf.shuffle s (k0 :: ks) perm =
      ((k0 :: ks).foldl (fun acc k => shuffleField acc s perm k) buf, none) := by
    unfold AgentBuffer.shuffle
    rw [if_neg (by rw [hcheck]; simp)]
    show (if s = 0 then ((buf.getOrCreate k0).2, some BufferError.zeroDivision)
      else ((k0 :: ks).foldl (fun acc k => shuffleField acc s perm k)
        (buf.getOrCreate k0).2, none)) = _
    rw [if_neg (by omega)]
    rw [getOrCreate_of_find? buf k0 f0 hf0]
  have hmem : ∀ k ∈ k0 :: ks, ∀ f, buf.find? k = some f →
      (buf.shuffle s (k0 :: ks) perm).1.find? k
        = some { f with elements := chunkPerm perm s f.elements } := by
    intro k hk f hf
    rw [hshuffle]
    exact foldl_shuffleField_mem s perm (k0 :: ks) buf hnd k hk f hf
  refine ⟨by rw [hshuffle], hmem, ?_, ?_⟩
  · intro k hk g hg
    obtain ⟨f, hf, hflen⟩ := hfields k hk
    have := hmem k hk f hf
    rw [this] at hg
    cases hg
    show (chunkPerm perm s f.elements).length = _
    rw [chunkPerm_length s n perm f.elements hflen hpermmem, hpermlen]
  · intro hs1 i hi
    subst hs1
    have hiperm : i < perm.length := by
      rw [hpermlen, Nat.div_one]
      exact hi
    refine ⟨perm.getD i 0, ?_, ?_⟩
    · have hmemperm : perm.getD i 0 ∈ perm := by
        have := getElem?_getD_of_lt perm 0 i hiperm
        exact List.getElem?_mem this
      have := hpermmem _ hmemperm
      rw [Nat.div_one] at this
      exact this
    · intro k hk f g hf hg
      have hgval := hmem k hk f hf
      rw [hgval] at hg
      cases hg
      obtain ⟨_, _, hflen⟩ := hfields k hk
      have hflen2 : f.elements.length = n := by
        obtain ⟨f2, hf2, hf2len⟩ := hfields k hk
        rw [hf] at hf2
        cases hf2
        exact hf2len
      have hbounds : ∀ j ∈ perm, j < f.elements.length := by
        intro j hj
        rw [hflen2]
        have := hpermmem j hj
        rw [Nat.div_one] at this
        exact this
      show (chunkPerm perm 1 f.elements)[i]? = _
      rw [chunkPerm_one f.elements perm hbounds]
      rw [List.getElem?_map]
      rw [getElem?_getD_of_lt perm 0 i hiperm]
      rw [getElem?_getD_of_lt f.elements 0 (perm.getD i 0)
        (by
          rw [hflen2]
          have hmemperm : perm.getD i 0 ∈ perm := by
            have := getElem?_getD_of_lt perm 0 i hiperm
            exact List.getElem?_mem this
          have := hpermmem _ hmemperm
          rw [Nat.div_one] at this
          exact this)]
      rfl

theorem shuffle_single_permutation_witness :
    (AgentBuffer.shuffle
      ⟨[("A", ⟨[10, 20, 30, 40, 50], 0⟩), ("B", ⟨[1, 2, 3, 4, 5], 7⟩)], none, none⟩
      2 ["A", "B"] [1, 0]).2 = none :=
  (shuffle_single_permutation
    ⟨[("A", ⟨[10, 20, 30, 40, 50], 0⟩), ("B", ⟨[1, 2, 3, 4, 5], 7⟩)], none, none⟩
    2 ["A", "B"] [1, 0] 5 (by decide) (by decide) (by decide)
    (by
      intro k hk
      cases hk with
      | head => exact ⟨⟨[10, 20, 30, 40, 50], 0⟩, rfl, rfl⟩
      | tail _ h2 =>
        cases h2 with
        | head => exact ⟨⟨[1, 2, 3, 4, 5], 7⟩, rfl, rfl⟩
        | tail _ h3 => cases h3)
    (by decide)).1

theorem checkLenGo_some_iff (b : AgentBuffer) (m : Nat) :
    ∀ names : List String,
      (checkLenGo b names (some m) = true ↔
        ∀ k ∈ names, ∃ f, b.find? k = some f ∧ f.elements.length = m)
  | [] => by simp [checkLenGo]
  | k :: ks => by
    simp only [checkLenGo]
    cases hf : b.find? k with
    | none =>
      constructor
      · intro h
        exact absurd h (by simp)
      · intro h
        obtain ⟨f, hf2, _⟩ := h k (List.mem_cons_self k ks)
        rw [hf] at hf2
        exact Option.noConfusion hf2
    | some f =>
      show (if m ≠ f.elements.length then false
          else checkLenGo b ks (some f.elements.length)) = true ↔ _
      by_cases hm : m = f.elements.length
      · rw [if_neg (by simp [hm]), ← hm, checkLenGo_some_iff b m ks]
        constructor
        · intro hall k2 hk2
          rcases List.mem_cons.mp hk2 with rfl | hk2r
          · exact ⟨f, hf, hm.symm⟩
          · exact hall k2 hk2r
        · intro hall k2 hk2
          exact hall k2 (List.mem_cons_of_mem _ hk2)
      · rw [if_pos hm]
        constructor
        · intro h
          exact absurd h (by simp)
        · intro hall
          obtain ⟨f2, hf2, hlen2⟩ := hall k (List.mem_cons_self k ks)
          rw [hf] at hf2
          cases hf2
          exact absurd hlen2.symm hm

theorem check_length_true_iff (b : AgentBuffer) (names : List String) :
    b.check_length names = true ↔
      (names.length < 2 ∨
        ∃ m, ∀ k ∈ names, ∃ f, b.find? k = some f ∧ f.elements.length = m) := by
  unfold AgentBuffer.check_length
  split
  · rename_i h
    simp [h]
  · rename_i h
    cases names with
    | nil => exact absurd (by simp) h
    | cons k ks =>
      simp only [checkLenGo]
      cases hf : b.find? k with
      | none =>
        constructor
        · intro hcon
          exact absurd hcon (by simp)
        · intro hr
          rcases hr with hlt | ⟨m, hall⟩
          · exact absurd hlt h
          · obtain ⟨f, hf2, _⟩ := hall k (List.mem_cons_self k ks)
            rw [hf] at hf2
            exact Option.noConfusion hf2
      | some f =>
        show checkLenGo b ks (some f.elements.length) = true ↔ _
        rw [checkLenGo_some_iff b f.elements.length ks]
        constructor
        · intro hall
          refine Or.inr ⟨f.elements.length, ?_⟩
          intro k2 hk2
          rcases List.mem_cons.mp hk2 with rfl | hk2r
          · exact ⟨f, hf, rfl⟩
          · exact hall k2 hk2r
        · intro hr
          rcases hr with hlt | ⟨m, hall⟩
          · exact absurd hlt h
          · obtain ⟨f0, hf0, hlen0⟩ := hall k (List.mem_cons_self k ks)
            rw [hf] at hf0
            cases hf0
            intro k2 hk2
            obtain ⟨f2, hf2, hlen2⟩ := hall k2 (List.mem_cons_of_mem _ hk2)
            exact ⟨f2, hf2, by rw [hlen2, ← hlen0]⟩

theorem get_batch_ne_lengthMismatch (f : AgentBufferField) (bsz tl : Option Nat)
    (sq : Bool) : f.get_batch bsz tl sq ≠ .error .lengthMismatch := by
  unfold AgentBufferField.get_batch
  cases tl with
  | none => simp
  | some t0 =>
    cases sq with
    | false =>
      show f.getBatchOverlap bsz t0 ≠ _
      unfold AgentBufferField.getBatchOverlap
      split
      · simp
      · simp
    | true =>
      show f.getBatchSeq bsz t0 ≠ _
      unfold AgentBufferField.getBatchSeq
      split
      · simp
      · split
        · simp
        · split
          · split
            · simp
            · simp
          · simp

theorem resequenceGo_ne_lengthMismatch (bsz tl : Option Nat) :
    ∀ (names : List String) (src tgt : AgentBuffer),
      (resequenceGo src tgt bsz tl names).2.2 ≠ some .lengthMismatch
  | [], src, tgt => by simp [resequenceGo]
  | k :: ks, src, tgt => by
    simp only [resequenceGo]
    split
    · rename_i e heq
      intro hcon
      replace hcon : some e = some BufferError.lengthMismatch := hcon
      have he : e = BufferError.lengthMismatch := by injection hcon
      exact get_batch_ne_lengthMismatch _ bsz tl true (by rw [heq, he])
    · exact resequenceGo_ne_lengthMismatch bsz tl ks _ _

theorem shuffle_lengthMismatch_iff (buf : AgentBuffer) (s : Nat)
    (names : List String) (perm : List Nat) :
    (buf.shuffle s names perm).2 = some .lengthMismatch ↔
      buf.check_length names = false := by
  cases names with
  | nil =>
    have hc : buf.check_length [] = true := rfl
    unfold AgentBuffer.shuffle
    rw [if_neg (by simp [hc]), hc]
    simp
  | cons k0 ks =>
    unfold AgentBuffer.shuffle
    cases hval : buf.check_length (k0 :: ks) with
    | false =>
      rw [if_pos (by simp [hval])]
      simp
    | true =>
      rw [if_neg (by simp [hval])]
      show ((if s = 0 then ((buf.getOrCreate k0).2, some BufferError.zeroDivision)
          else ((k0 :: ks).foldl (fun acc k => shuffleField acc s perm k)
            (buf.getOrCreate k0).2, none)).2 = some BufferError.lengthMismatch)
        ↔ true = false
      by_cases hs : s = 0
      · rw [if_pos hs]
        simp
      · rw [if_neg hs]
        simp

theorem resequence_lengthMismatch_iff (src tgt : AgentBuffer)
    (names : List String) (bsz tl : Option Nat) :
    (src.resequence_and_append tgt names bsz tl).2.2 = some .lengthMismatch ↔
      src.check_length names = false := by
  unfold AgentBuffer.resequence_and_append
  cases hval : src.check_length names with
  | false =>
    rw [if_pos (by simp [hval])]
    simp
  | true =>
    rw [if_neg (by simp [hval])]
    constructor
    · intro h
      exact absurd h (resequenceGo_ne_lengthMismatch bsz tl names src tgt)
    · intro h
      exact Bool.noConfusion h

/-- Claim C6: `check_length` is true exactly when fewer than two names are
given or every named field exists and all have one common length; `shuffle`
and `resequence_and_append` raise the length-mismatch `BufferException`
exactly when `check_length` on the requested names is false; and on that
error the operation has no effect — the receiver (and, for
`resequence_and_append`, the target buffer) is returned unchanged, the
check happening before any mutation. -/
theorem length_mismatch_error_semantics (buf target : AgentBuffer)
    (names : List String) (s : Nat) (perm : List Nat) (bsz tl : Option Nat) :
    (buf.check_length names = true ↔
      (names.length < 2 ∨
        ∃ m, ∀ k ∈ names, ∃ f, buf.find? k = some f ∧ f.elements.length = m)) ∧
    ((buf.shuffle s names perm).2 = some .lengthMismatch ↔
      buf.check_length names = false) ∧
    ((buf.resequence_and_append target names bsz tl).2.2 = some .lengthMismatch ↔
      buf.check_length names = false) ∧
    (buf.check_length names = false →
      buf.shuffle s names perm = (buf, some .lengthMismatch) ∧
      buf.resequence_and_append target names bsz tl
        = (buf, target, some .lengthMismatch)) := by
  refine ⟨check_length_true_iff buf names,
    shuffle_lengthMismatch_iff buf s names perm,
    resequence_lengthMismatch_iff buf target names bsz tl, ?_⟩
  intro h
  have hc : ¬ buf.check_length names = true := by simp [h]
  constructor
  · unfold AgentBuffer.shuffle
    rw [if_pos hc]
  · unfold AgentBuffer.resequence_and_append
    rw [if_pos hc]

theorem length_mismatch_error_semantics_witness :
    AgentBuffer.shuffle ⟨[("A", ⟨[1], 0⟩), ("B", ⟨[1, 2], 0⟩)], none, none⟩
        1 ["A", "B"] []
      = (⟨[("A", ⟨[1], 0⟩), ("B", ⟨[1, 2], 0⟩)], none, none⟩, some .lengthMismatch) :=
  ((length_mismatch_error_semantics ⟨[("A", ⟨[1], 0⟩), ("B", ⟨[1, 2], 0⟩)], none, none⟩
    AgentBuffer.empty ["A", "B"] 1 [] none none).2.2.2 (by decide)).1

end MLAgentsBuffer
